import Mathlib

/-!
Verification of the affine loop-nest analysis core and the fake-quant
parameter calculator of this repository.

The quantization part (`fakeQuantAttrsToType`) is embedded directly from
`src/lib/Quantization/IR/FakeQuantSupport.cpp`; floating-point doubles are
modelled as exact rationals (the branch structure of the source involves
only comparisons and exact affine arithmetic on the range endpoints).

The analysis part (`src/include/mlir/Analysis/Utils.h`) only declares the
entry points; the bodies live in a file of this repository that is not part
of the sources given here.  Those components are therefore modelled from
the specification, on the class of affine programs the claims range over:
perfect nests of unit-step loops with constant integer bounds, whose
memory accesses index each buffer dimension by a constant or by a single
enclosing induction variable plus a constant.
-/

namespace MlirAnalysis

/-! ## Quantization: `fakeQuantAttrsToType` (from FakeQuantSupport.cpp) -/

/-- Result type of `fakeQuantAttrsToType`: the components of a
`UniformQuantizedType` that the source constructs via `getChecked`. -/
structure UniformQuantizedType where
  signedFlag : Bool
  storageWidth : Nat
  scale : ℚ
  zeroPoint : ℤ
  qmin : ℤ
  qmax : ℤ
  deriving Repr, DecidableEq

/-- C `round`: half away from zero, on exact rationals. -/
def cround (x : ℚ) : ℤ :=
  if 0 ≤ x then ⌊x + 1/2⌋ else ⌈x - 1/2⌉

/-- The `narrowRange` adjustment: `if (narrowRange) qmin += 1;`. -/
def adjustNarrow (narrowRange : Bool) (q : ℤ) : ℤ :=
  if narrowRange then q + 1 else q

/-- The zero-point nudge: clamp to `[qmin, qmax]`, rounding in-range values. -/
def nudge (qmin qmax : ℤ) (z : ℚ) : ℤ :=
  if z < (qmin : ℚ) then qmin
  else if (qmax : ℚ) < z then qmax
  else cround z

/-- Embedding of `mlir::quant::fakeQuantAttrsToType`
(src/lib/Quantization/IR/FakeQuantSupport.cpp).  `emitError` followed by a
null return is modelled as `Except.error` carrying the diagnostic text;
doubles are modelled as exact rationals. -/
def fakeQuantAttrsToType (numBits : Nat) (rmin rmax : ℚ) (narrowRange : Bool) :
    Except String UniformQuantizedType :=
  -- Hard-coded type mapping from TFLite.
  if numBits ≤ 8 then
    fakeQuantCore false 8 0 255 rmin rmax narrowRange
  else if numBits ≤ 16 then
    fakeQuantCore true 16 (-32768) 32767 rmin rmax narrowRange
  else
    .error "unsupported FakeQuant number of bits"
where
  /-- The part of the source after the storage-type selection. -/
  fakeQuantCore (signedFlag : Bool) (storageWidth : Nat) (qmin0 qmax : ℤ)
      (rmin rmax : ℚ) (narrowRange : Bool) : Except String UniformQuantizedType :=
    -- Handle narrowRange.
    let qmin : ℤ := adjustNarrow narrowRange qmin0
    -- Range must straddle zero.
    if 0 < rmin ∨ rmax < 0 then
      .error "FakeQuant range must straddle zero"
    -- Special case where min/max is a point. Must be 0.
    else if rmin = rmax then
      .ok ⟨signedFlag, storageWidth, 0, 0, qmin, qmax⟩
    else
      -- Determine the scale.
      let qminD : ℚ := (qmin : ℚ)
      let qmaxD : ℚ := (qmax : ℚ)
      let scale : ℚ := (rmax - rmin) / (qmaxD - qminD)
      -- Zero point computation; use the variant that adds the smaller error.
      let zeroPointFromMin := qminD - rmin / scale
      let zeroPointFromMinError := |qminD| + |rmin / scale|
      let zeroPointFromMax := qmaxD - rmax / scale
      let zeroPointFromMaxError := |qmaxD| + |rmax / scale|
      let zeroPointDouble :=
        if zeroPointFromMinError < zeroPointFromMaxError then zeroPointFromMin
        else zeroPointFromMax
      -- Now nudge the zero point to be an integer.
      let nudgedZeroPoint : ℤ := nudge qmin qmax zeroPointDouble
      .ok ⟨signedFlag, storageWidth, scale, nudgedZeroPoint, qmin, qmax⟩

/-! ## Parallelism Classifier: `isLoopParallel`

Modelled from the spec: the body of `mlir::isLoopParallel` (declared in
src/include/mlir/Analysis/Utils.h, line 239) is not among the given
sources.  The model follows section 4.2 of the spec on loops of the
embedded class: a single unit-step loop `[lb, ub)` whose body performs
one-dimensional memory accesses whose index is either a constant, or the
loop induction variable plus a constant, or non-affine. -/

/-- A one-dimensional access subscript of the embedded class. -/
inductive Idx1 where
  | cst (c : ℤ)
  | ivOff (c : ℤ)
  | nonAffine
  deriving Repr, DecidableEq

/-- Value of an analyzable subscript at induction-variable value `i`
(the `nonAffine` case is never consulted by the classifier). -/
def Idx1.eval : Idx1 → ℤ → ℤ
  | .cst c, _ => c
  | .ivOff c, i => i + c
  | .nonAffine, _ => 0

/-- Whether the subscript is representable in the affine algebra. -/
def Idx1.analyzable : Idx1 → Bool
  | .nonAffine => false
  | _ => true

/-- A memory access of a loop body: buffer, read/write flag, subscript. -/
structure MemAccess where
  memref : Nat
  isWr : Bool
  idx : Idx1
  deriving Repr, DecidableEq

/-- A unit-step loop `for i in [lb, ub)` whose body performs `accs`. -/
structure AffineLoop where
  lb : ℤ
  ub : ℤ
  accs : List MemAccess
  deriving Repr, DecidableEq

/-- Two accesses conflict when they reference the same buffer and at least
one is a write. -/
def conflicting (p q : MemAccess) : Bool :=
  p.memref == q.memref && (p.isWr || q.isWr)

/-- Modelled from the spec (section 4.2): the dependence between two
accesses is carried by the loop when their subscripts take equal values at
two distinct iterations of the loop; satisfiability of the intersection of
the index-equality constraint with the iteration domain is decided by
enumerating the (finitely many) iteration pairs. -/
def carriedDependence (L : AffineLoop) (p q : MemAccess) : Bool :=
  let n := (L.ub - L.lb).toNat
  (List.range n).any fun k1 =>
    (List.range n).any fun k2 =>
      k1 ≠ k2 && p.idx.eval (L.lb + k1) == q.idx.eval (L.lb + k2)

/-- Modelled from the spec: `mlir::isLoopParallel` (declaration at
src/include/mlir/Analysis/Utils.h, line 239; body not among the given
sources).  Returns true iff every access is analyzable and no ordered pair
of conflicting accesses has a dependence carried by the loop; any
non-affine subscript classifies the loop as sequential. -/
def isLoopParallel (L : AffineLoop) : Bool :=
  L.accs.all (fun a => a.idx.analyzable) &&
  !(L.accs.any fun p => L.accs.any fun q =>
      conflicting p q && carriedDependence L p q)

/-! ## Memory Region Builder: `MemRefRegion`

Modelled from the spec: the bodies of `MemRefRegion::compute`,
`getConstantBoundingSizeAndShape`, `unionBoundingBox` and
`boundCheckLoadOrStoreOp` (declared in src/include/mlir/Analysis/Utils.h,
lines 157-228) are not among the given sources.  The model follows
sections 4.3 and 3 of the spec on the embedded class: perfect nests of
unit-step loops with constant bounds, and accesses whose subscript in each
buffer dimension is a constant or a single enclosing induction variable
plus a constant (inner induction variables are eliminated by substituting
their instantiated loop bounds through the subscript equality, which is
exact projection for this class). -/

/-- A subscript of one buffer dimension: constant, enclosing loop `k`'s
induction variable plus a constant, or non-affine. -/
inductive IndexExpr where
  | cst (c : ℤ)
  | iv (k : Nat) (c : ℤ)
  | nonAffine
  deriving Repr, DecidableEq

/-- A memory access together with its surrounding loop nest and the static
shape of the accessed memref: the input of `MemRefRegion::compute` and of
`boundCheckLoadOrStoreOp`. -/
structure AccessNest where
  memref : Nat
  isWr : Bool
  loc : Nat
  loops : List (ℤ × ℤ)
  indices : List IndexExpr
  extents : List ℤ
  deriving Repr, DecidableEq

/-- One row of a `FlatAffineConstraints` system: an equality
`dims·dimCoeffs + syms·symCoeffs + const = 0` or an inequality `… ≥ 0`. -/
structure LinCon where
  dimCoeffs : List ℤ
  symCoeffs : List ℤ
  const : ℤ
  isEq : Bool
  deriving Repr, DecidableEq

/-- The constraint system consumed as a library (spec section 6). -/
structure FlatAffineConstraints where
  numDims : Nat
  numSyms : Nat
  cons : List LinCon
  deriving Repr, DecidableEq

def dot (xs ys : List ℤ) : ℤ := (List.zipWith (· * ·) xs ys).sum

/-- A row holds under an assignment of values to dims and symbols. -/
def LinCon.holds (c : LinCon) (ds ss : List ℤ) : Prop :=
  if c.isEq then dot c.dimCoeffs ds + dot c.symCoeffs ss + c.const = 0
  else 0 ≤ dot c.dimCoeffs ds + dot c.symCoeffs ss + c.const

/-- Satisfiability of the system (spec section 6: test satisfiability). -/
def FlatAffineConstraints.satisfiable (cst : FlatAffineConstraints) : Prop :=
  ∃ ds ss, ds.length = cst.numDims ∧ ss.length = cst.numSyms ∧
    ∀ c ∈ cst.cons, c.holds ds ss

/-- The coefficient vector of length `n` that is `a` at `pos`, 0 elsewhere. -/
def unitCoeffs (n pos : Nat) (a : ℤ) : List ℤ :=
  (List.range n).map fun j => if j = pos then a else 0

/-- Modelled from the spec (section 4.3): the rows tying buffer dimension
`pos` to its subscript.  A constant subscript gives `d = c`; a subscript on
a symbolic loop (below `loopDepth`) gives the equality `d = s_k + c`; a
subscript on an inner loop gives the fully instantiated bound inequalities
`lb + c ≤ d ≤ ub - 1 + c`; a non-affine subscript is a failure. -/
def rowsForIndex (rank loopDepth : Nat) (loops : List (ℤ × ℤ)) (pos : Nat) :
    IndexExpr → Option (List LinCon)
  | .cst c => some [⟨unitCoeffs rank pos 1, List.replicate loopDepth 0, -c, true⟩]
  | .iv k c =>
    if k < loopDepth then
      some [⟨unitCoeffs rank pos 1, unitCoeffs loopDepth k (-1), -c, true⟩]
    else
      match loops.get? k with
      | some (lb, ub) =>
        some [⟨unitCoeffs rank pos 1, List.replicate loopDepth 0, -(lb + c), false⟩,
              ⟨unitCoeffs rank pos (-1), List.replicate loopDepth 0, ub - 1 + c, false⟩]
      | none => none
  | .nonAffine => none

/-- Builds the rows for subscripts `l` of the dimensions `pos, pos+1, …`. -/
def buildRows (rank loopDepth : Nat) (loops : List (ℤ × ℤ)) :
    Nat → List IndexExpr → Option (List LinCon)
  | _, [] => some []
  | pos, e :: rest =>
    match rowsForIndex rank loopDepth loops pos e,
          buildRows rank loopDepth loops (pos + 1) rest with
    | some rs, some rest' => some (rs ++ rest')
    | _, _ => none

/-- A region of a memref's data space (src/include/mlir/Analysis/Utils.h,
lines 124-217): buffer, read/write flag, location, constraint system. -/
structure MemRefRegion where
  memref : Nat
  write : Bool
  loc : Nat
  cst : FlatAffineConstraints
  deriving Repr, DecidableEq

/-- Modelled from the spec: `MemRefRegion::compute` (declaration at
src/include/mlir/Analysis/Utils.h, line 157; body not among the given
sources).  One dimension identifier per buffer rank, one symbol identifier
per surrounding loop up to `loopDepth`, and per-dimension rows tying the
dimension to the subscript; fails exactly when a subscript cannot be
represented affinely. -/
def MemRefRegion.compute (an : AccessNest) (loopDepth : Nat) : Option MemRefRegion :=
  (buildRows an.indices.length loopDepth an.loops 0 an.indices).map fun rows =>
    ⟨an.memref, an.isWr, an.loc, ⟨an.indices.length, loopDepth, rows⟩⟩

/-- Modelled from the spec: constant bound on the extent of dimension `pos`
holding all symbols fixed (`FlatAffineConstraints::getConstantBoundOnDimSize`).
An equality determining the dimension from symbols alone bounds the extent
by 1; otherwise matching lower/upper inequality pairs whose symbol parts
cancel give `cUp + cLo + 1`, minimized over pairs. -/
def FlatAffineConstraints.getConstantBoundOnDimSize
    (cst : FlatAffineConstraints) (pos : Nat) : Option ℤ :=
  if cst.cons.any fun r => r.isEq && (r.dimCoeffs == unitCoeffs cst.numDims pos 1) then
    some 1
  else
    let lows := cst.cons.filter fun r =>
      !r.isEq && (r.dimCoeffs == unitCoeffs cst.numDims pos 1)
    let ups := cst.cons.filter fun r =>
      !r.isEq && (r.dimCoeffs == unitCoeffs cst.numDims pos (-1))
    (lows.flatMap fun l => ups.filterMap fun u =>
      if (List.zipWith (· + ·) l.symCoeffs u.symCoeffs).all (· == 0) then
        some (l.const + u.const + 1)
      else none).min?

/-- Symbol-free constant lower bound on dimension `pos` (tightest). -/
def FlatAffineConstraints.getConstantLowerBound
    (cst : FlatAffineConstraints) (pos : Nat) : Option ℤ :=
  (cst.cons.filterMap fun r =>
    if (r.dimCoeffs == unitCoeffs cst.numDims pos 1) && r.symCoeffs.all (· == 0) then
      some (-r.const)
    else none).max?

/-- Symbol-free constant upper bound on dimension `pos` (tightest). -/
def FlatAffineConstraints.getConstantUpperBound
    (cst : FlatAffineConstraints) (pos : Nat) : Option ℤ :=
  (cst.cons.filterMap fun r =>
    if r.isEq && (r.dimCoeffs == unitCoeffs cst.numDims pos 1) &&
        r.symCoeffs.all (· == 0) then
      some (-r.const)
    else if !r.isEq && (r.dimCoeffs == unitCoeffs cst.numDims pos (-1)) &&
        r.symCoeffs.all (· == 0) then
      some r.const
    else none).min?

/-- Modelled from the spec: `MemRefRegion::getConstantBoundingSizeAndShape`
(declaration at src/include/mlir/Analysis/Utils.h, line 172): per-dimension
constant extents, absent as soon as one dimension has none. -/
def MemRefRegion.getConstantBoundingSizeAndShape (r : MemRefRegion) :
    Option (ℤ × List ℤ) :=
  match (List.range r.cst.numDims).mapM
      (fun pos => r.cst.getConstantBoundOnDimSize pos) with
  | some shape => some (shape.prod, shape)
  | none => none

/-- The interval hull of dimension `pos` of two compatible regions, as two
inequality rows; absent when either region lacks a constant bound there. -/
def hullRowsAt (r1 r2 : MemRefRegion) (pos : Nat) : Option (List LinCon) :=
  match r1.cst.getConstantLowerBound pos, r1.cst.getConstantUpperBound pos,
        r2.cst.getConstantLowerBound pos, r2.cst.getConstantUpperBound pos with
  | some a1, some b1, some a2, some b2 =>
    some [⟨unitCoeffs r1.cst.numDims pos 1, List.replicate r1.cst.numSyms 0,
             -(min a1 a2), false⟩,
          ⟨unitCoeffs r1.cst.numDims pos (-1), List.replicate r1.cst.numSyms 0,
             max b1 b2, false⟩]
  | _, _, _, _ => none

/-- Modelled from the spec: `MemRefRegion::unionBoundingBox` (declaration at
src/include/mlir/Analysis/Utils.h, line 193): requires the same buffer and
the same dimension/symbol structure, and replaces the constraints with the
per-dimension interval hull of the two boxes. -/
def MemRefRegion.unionBoundingBox (r1 r2 : MemRefRegion) : Option MemRefRegion :=
  if r1.memref ≠ r2.memref ∨ r1.cst.numDims ≠ r2.cst.numDims ∨
      r1.cst.numSyms ≠ r2.cst.numSyms then
    none
  else
    ((List.range r1.cst.numDims).mapM (hullRowsAt r1 r2)).map fun rowss =>
      ⟨r1.memref, r1.write, r1.loc, ⟨r1.cst.numDims, r1.cst.numSyms, rowss.flatten⟩⟩

/-- Modelled from the spec: `boundCheckLoadOrStoreOp` (declaration at
src/include/mlir/Analysis/Utils.h, line 227; body not among the given
sources).  Computes the fully instantiated region (depth 0) and reports a
dimension when the region provably reaches outside `[0, extent)`: the
dimension's own statically known range is non-empty and escapes the valid
range, while every other dimension also admits a value (an unsatisfiable
region reports nothing).  Returns (success, emitted diagnostics). -/
def dimFeasible (cst : FlatAffineConstraints) (q : Nat) : Bool :=
  match cst.getConstantLowerBound q, cst.getConstantUpperBound q with
  | some a, some b => a ≤ b
  | _, _ => false

/-- Dimension `pos` provably reaches outside `[0, extent)`: its statically
known range is non-empty and escapes the valid range, and every other
dimension also admits a value (so the bad point is a point of the region). -/
def dimOutOfRange (an : AccessNest) (cst : FlatAffineConstraints) (pos : Nat) : Bool :=
  match an.extents.get? pos with
  | none => false
  | some e =>
    match cst.getConstantLowerBound pos, cst.getConstantUpperBound pos with
    | some a, some b =>
      a ≤ b && (a < 0 || e ≤ b) &&
        ((List.range cst.numDims).all fun q => q == pos || dimFeasible cst q)
    | _, _ => false

def boundCheckLoadOrStoreOp (an : AccessNest) (emitError : Bool) :
    Bool × List Nat :=
  match MemRefRegion.compute an 0 with
  | none => (true, [])
  | some r =>
    let failing := (List.range r.cst.numDims).filter (dimOutOfRange an r.cst)
    (failing.isEmpty, if emitError then failing.map (fun _ => an.loc) else [])

/-- The load of the claims: `for i in [0,10): for j in [0,10): load A[i][j]`. -/
def loadNest1010 : AccessNest :=
  ⟨0, false, 3, [(0, 10), (0, 10)], [.iv 0 0, .iv 1 0], [10, 10]⟩

/-- A load under a zero-trip loop: its region is a legitimate empty region. -/
def emptyTripNest : AccessNest := ⟨0, false, 0, [(5, 5)], [.iv 0 0], [10]⟩

/-- The region of `loadNest1010` at loop depth 0, written out. -/
def loadNest1010Region0 : MemRefRegion :=
  ⟨0, false, 3, ⟨2, 0, [⟨[1, 0], [], 0, false⟩, ⟨[-1, 0], [], 9, false⟩,
    ⟨[0, 1], [], 0, false⟩, ⟨[0, -1], [], 9, false⟩]⟩⟩

/-! ### Exactness of the constant-bound machinery on computed regions -/

/-- The smallest value subscript `e` takes over its loop's domain. -/
def loVal (loops : List (ℤ × ℤ)) : IndexExpr → Option ℤ
  | .cst c => some c
  | .iv k c => (loops.get? k).map fun p => p.1 + c
  | .nonAffine => none

/-- The largest value subscript `e` takes over its loop's domain. -/
def hiVal (loops : List (ℤ × ℤ)) : IndexExpr → Option ℤ
  | .cst c => some c
  | .iv k c => (loops.get? k).map fun p => p.2 - 1 + c
  | .nonAffine => none

/-- The subscript `e` provably escapes `[0, ext)`: at some iteration value
satisfying its loop's bounds, the subscript lies outside the valid range. -/
def idxCanEscape (loops : List (ℤ × ℤ)) (e : IndexExpr) (ext : ℤ) : Prop :=
  match e with
  | .cst c => c < 0 ∨ ext ≤ c
  | .iv k c => ∃ lb ub i, loops.get? k = some (lb, ub) ∧ lb ≤ i ∧ i < ub ∧
      (i + c < 0 ∨ ext ≤ i + c)
  | .nonAffine => False

/-- The access `A[10]` where `A` has static extent 10. -/
def constIndexAccess : AccessNest := ⟨0, false, 7, [], [.cst 10], [10]⟩

/-- The access `A[i]` with `i` statically bounded to `[0, 10)`. -/
def ivIndexAccess : AccessNest := ⟨0, false, 8, [(0, 10)], [.iv 0 0], [10]⟩

/-! ## Computation Slice Engine and Slice Materializer

Modelled from the spec: the bodies of `getBackwardComputationSliceState`,
`insertBackwardComputationSlice` and `ComputationSliceState::clearBounds`
(declared in src/include/mlir/Analysis/Utils.h, lines 64-108) are not among
the given sources.  The models follow sections 4.4 and 4.5 of the spec on
the class the claims range over: one-dimensional producer/consumer accesses
each surrounded by a single unit-step loop. -/

/-- A single-result affine bound map over the enclosing induction
variables, outermost first: `coeffs · env + const`. -/
structure LinExpr where
  coeffs : List ℤ
  const : ℤ
  deriving Repr, DecidableEq

def evalLin (e : LinExpr) (env : List ℤ) : ℤ :=
  dot e.coeffs env + e.const

/-- `ComputationSliceState` (src/include/mlir/Analysis/Utils.h, lines
64-86): sliced loop ivs (outermost first), lower/upper bound maps (null
maps are full loop slices), and the operand lists of the maps. -/
structure ComputationSliceState where
  ivs : List Nat
  lbs : List (Option LinExpr)
  ubs : List (Option LinExpr)
  lbOperands : List (List Nat)
  ubOperands : List (List Nat)
  deriving Repr, DecidableEq

/-- Modelled from the spec: `ComputationSliceState::clearBounds`
(src/include/mlir/Analysis/Utils.h, lines 84-85): clears all bounds and
operands in the slice state. -/
def ComputationSliceState.clearBounds (s : ComputationSliceState) :
    ComputationSliceState :=
  { s with lbs := [], ubs := [], lbOperands := [], ubOperands := [] }

/-- A one-dimensional memref access surrounded by a single unit-step loop:
the producer/consumer inputs of `getBackwardComputationSliceState` in the
modelled class.  `ivId` names the loop's induction variable. -/
structure MemRefAccess where
  memref : Nat
  ivId : Nat
  loop : ℤ × ℤ
  idx : IndexExpr
  deriving Repr, DecidableEq

/-- Modelled from the spec: `getBackwardComputationSliceState`
(src/include/mlir/Analysis/Utils.h, lines 91-93; body not among the given
sources).  Source iteration `i_s` feeds destination iteration `i_d` of the
same buffer exactly when `i_s + cs = i_d + cd`.  At `dstLoopDepth = 1` the
destination iv is a symbol and the slice is the single iteration
`[i_d + (cd - cs), i_d + (cd - cs) + 1)`; at `dstLoopDepth = 0` no
destination iv is a symbol (it is projected out) and the slice is the
constant range covering every consumer iteration.  Fails on distinct
buffers, non-affine subscripts, or a depth above the destination nest. -/
def getBackwardComputationSliceState (srcAccess dstAccess : MemRefAccess)
    (dstLoopDepth : Nat) : Option ComputationSliceState :=
  if srcAccess.memref ≠ dstAccess.memref then none
  else
    match srcAccess.idx, dstAccess.idx with
    | .iv 0 cs, .iv 0 cd =>
      if dstLoopDepth = 0 then
        some ⟨[srcAccess.ivId],
          [some ⟨[], dstAccess.loop.1 + (cd - cs)⟩],
          [some ⟨[], dstAccess.loop.2 + (cd - cs)⟩],
          [[]], [[]]⟩
      else if dstLoopDepth = 1 then
        some ⟨[srcAccess.ivId],
          [some ⟨[1], cd - cs⟩],
          [some ⟨[1], cd - cs + 1⟩],
          [[dstAccess.ivId]], [[dstAccess.ivId]]⟩
      else none
    | _, _ => none

/-! ### A small semantics for structured affine programs -/

/-- Memory: buffer id → cell index → value. -/
def Mem : Type := Nat → ℤ → ℤ

def writeMem (m : Mem) (a : Nat) (x v : ℤ) : Mem :=
  fun b y => if b = a ∧ y = x then v else m b y

/-- A value expression: affine value, a load, or an opaque function call. -/
inductive VExpr where
  | affine (e : LinExpr)
  | load (mem : Nat) (idx : LinExpr)
  | app (f : Nat) (arg : VExpr)
  deriving Repr, DecidableEq

/-- A structured operation: a store, a sequence, or an affine loop whose
bound maps read the enclosing induction variables, outermost first. -/
inductive Stmt where
  | store (mem : Nat) (idx : LinExpr) (val : VExpr)
  | seq (s t : Stmt)
  | forLoop (lb ub : LinExpr) (body : Stmt)
  deriving Repr, DecidableEq

def evalV (F : Nat → ℤ → ℤ) (env : List ℤ) (m : Mem) : VExpr → ℤ
  | .affine e => evalLin e env
  | .load a idx => m a (evalLin idx env)
  | .app f v => F f (evalV F env m v)

/-- Runs `step` at `i, i+1, …` for `n` iterations. -/
def iterate (step : ℤ → Mem → Mem) : ℤ → Nat → Mem → Mem
  | _, 0, m => m
  | i, n + 1, m => iterate step (i + 1) n (step i m)

/-- The semantics of a statement under function table `F`, environment of
enclosing induction-variable values `env`, and memory `m`. -/
def execStmt (F : Nat → ℤ → ℤ) : Stmt → List ℤ → Mem → Mem
  | .store a idx v => fun env m => writeMem m a (evalLin idx env) (evalV F env m v)
  | .seq s t => fun env m => execStmt F t env (execStmt F s env m)
  | .forLoop lb ub body => fun env m =>
      iterate (fun i mm => execStmt F body (env ++ [i]) mm)
        (evalLin lb env) (evalLin ub env - evalLin lb env).toNat m

/-! ### The materializer -/

/-- Re-indexes an affine map after the statement is re-nested `d` levels
deeper (the cloned nest's own ivs shift past the destination ivs). -/
def shiftLin (d : Nat) (e : LinExpr) : LinExpr :=
  ⟨List.replicate d 0 ++ e.coeffs, e.const⟩

def shiftV (d : Nat) : VExpr → VExpr
  | .affine e => .affine (shiftLin d e)
  | .load a idx => .load a (shiftLin d idx)
  | .app f v => .app f (shiftV d v)

/-- Clones a source nest for insertion under `d` destination loops: each
spine loop's bounds are replaced by the corresponding slice maps (functions
of the destination ivs; the shifted original bound when the slice carries
none), and every other affine map is re-indexed past the destination ivs
(the operand remapping of node cloning). -/
def rewriteClone (d : Nat) (lbs ubs : List (Option LinExpr)) : Stmt → Stmt
  | .store a idx v => .store a (shiftLin d idx) (shiftV d v)
  | .seq s t => .seq (rewriteClone d lbs ubs s) (rewriteClone d lbs ubs t)
  | .forLoop lb ub body =>
    match lbs, ubs with
    | olb :: lbs2, oub :: ubs2 =>
      .forLoop (olb.getD (shiftLin d lb)) (oub.getD (shiftLin d ub))
        (rewriteClone d lbs2 ubs2 body)
    | _, _ =>
      .forLoop (shiftLin d lb) (shiftLin d ub) (rewriteClone d [] [] body)

/-- Every slice bound map only reads destination ivs that are in scope at
insertion depth `d`. -/
def sliceMapsInScope (d : Nat) (s : ComputationSliceState) : Bool :=
  (s.lbs.all fun ob => match ob with
    | some b => b.coeffs.length ≤ d
    | none => true) &&
  (s.ubs.all fun ob => match ob with
    | some b => b.coeffs.length ≤ d
    | none => true)

/-- Inserts `new` as the first operation of the body of the loop at depth
`d` of a (single-spine) destination nest. -/
def insertAtDepth (new : Stmt) : Nat → Stmt → Option Stmt
  | 1, .forLoop lb ub body => some (.forLoop lb ub (.seq new body))
  | Nat.succ (Nat.succ d), .forLoop lb ub body =>
    (insertAtDepth new (Nat.succ d) body).map (.forLoop lb ub)
  | _, _ => none

/-- Modelled from the spec: `insertBackwardComputationSlice`
(src/include/mlir/Analysis/Utils.h, lines 105-108; body not among the given
sources): clones the source nest, rewrites the cloned loops' bounds with
the slice maps, and inserts the clone at the beginning of the body of the
destination loop at `dstLoopDepth`; returns an absent result when the depth
does not name a destination loop or a slice operand is out of scope at the
insertion point.  The source and destination nests are disjoint subtrees
(the modelled class has no common surrounding loops). -/
def insertBackwardComputationSlice (srcNest dstNest : Stmt) (dstLoopDepth : Nat)
    (slice : ComputationSliceState) : Option Stmt :=
  if sliceMapsInScope dstLoopDepth slice then
    insertAtDepth (rewriteClone dstLoopDepth slice.lbs slice.ubs srcNest)
      dstLoopDepth dstNest
  else none

/-- The pass at program level: a program is the pair (producer nest,
consumer nest) of top-level nests; the materializer replaces the consumer
nest and leaves the producer nest untouched. -/
def insertSliceInProgram (prog : Stmt × Stmt) (dstLoopDepth : Nat)
    (slice : ComputationSliceState) : Option (Stmt × Stmt) :=
  (insertBackwardComputationSlice prog.1 prog.2 dstLoopDepth slice).map
    fun c => (prog.1, c)

/-! ### The concrete producer/consumer pair of the claims -/

/-- `for i in [0,N): A[i] = f(i)` with `A = 0`, `f = F 0`. -/
def prodNest (N : Nat) : Stmt :=
  .forLoop ⟨[], 0⟩ ⟨[], (N : ℤ)⟩ (.store 0 ⟨[1], 0⟩ (.app 0 (.affine ⟨[1], 0⟩)))

/-- `for i in [0,N): B[i] = g(A[i])` with `B = 1`, `g = F 1`. -/
def consNest (N : Nat) : Stmt :=
  .forLoop ⟨[], 0⟩ ⟨[], (N : ℤ)⟩ (.store 1 ⟨[1], 0⟩ (.app 1 (.load 0 ⟨[1], 0⟩)))

/-- The depth-1 slice for that pair: one producer iteration `[i, i+1)` per
consumer iteration `i` (the output of the slice engine at depth 1). -/
def fusionSlice : ComputationSliceState :=
  ⟨[100], [some ⟨[1], 0⟩], [some ⟨[1], 1⟩], [[200]], [[200]]⟩

/-- The fused consumer nest: the cloned single-iteration producer slice
immediately before the consumer statement inside the same loop body. -/
def fusedNest (N : Nat) : Stmt :=
  .forLoop ⟨[], 0⟩ ⟨[], (N : ℤ)⟩
    (.seq (.forLoop ⟨[1], 0⟩ ⟨[1], 1⟩
        (.store 0 ⟨[0, 1], 0⟩ (.app 0 (.affine ⟨[0, 1], 0⟩))))
      (.store 1 ⟨[1], 0⟩ (.app 1 (.load 0 ⟨[1], 0⟩))))

/-! ## Theorems -/

theorem le_cround (a : ℤ) (x : ℚ) (h : (a : ℚ) ≤ x) : a ≤ cround x := by
  unfold cround
  split
  · exact Int.le_floor.mpr (by linarith)
  · have hlt : (a : ℚ) - 1 < x - 1/2 := by linarith
    have := Int.lt_ceil.mpr (show ((a - 1 : ℤ) : ℚ) < x - 1/2 by push_cast; linarith)
    omega

theorem cround_le (b : ℤ) (x : ℚ) (h : x ≤ (b : ℚ)) : cround x ≤ b := by
  unfold cround
  split
  · have := Int.floor_lt.mpr (show x + 1/2 < ((b + 1 : ℤ) : ℚ) by push_cast; linarith)
    omega
  · exact Int.ceil_le.mpr (by linarith)

theorem fakeQuantCore_err (sf : Bool) (sw : Nat) (qmin0 qmax : ℤ) (rmin rmax : ℚ)
    (nr : Bool) (h : 0 < rmin ∨ rmax < 0) :
    ∃ s, fakeQuantAttrsToType.fakeQuantCore sf sw qmin0 qmax rmin rmax nr = .error s := by
  simp only [fakeQuantAttrsToType.fakeQuantCore]
  rw [if_pos h]
  exact ⟨_, rfl⟩

theorem nudge_mem (qmin qmax : ℤ) (z : ℚ) (hq : qmin ≤ qmax) :
    qmin ≤ nudge qmin qmax z ∧ nudge qmin qmax z ≤ qmax := by
  unfold nudge
  split_ifs with hlo hhi
  · exact ⟨le_refl _, hq⟩
  · exact ⟨hq, le_refl _⟩
  · push_neg at hlo hhi
    exact ⟨le_cround _ _ hlo, cround_le _ _ hhi⟩

theorem fakeQuantCore_ok (sf : Bool) (sw : Nat) (qmin0 qmax : ℤ) (rmin rmax : ℚ)
    (nr : Bool) (h1 : rmin ≤ 0) (h2 : 0 ≤ rmax) :
    ∃ t, fakeQuantAttrsToType.fakeQuantCore sf sw qmin0 qmax rmin rmax nr = .ok t ∧
      t.signedFlag = sf ∧ t.storageWidth = sw ∧
      t.qmin = adjustNarrow nr qmin0 ∧ t.qmax = qmax := by
  simp only [fakeQuantAttrsToType.fakeQuantCore]
  rw [if_neg (by push_neg; exact ⟨h1, h2⟩)]
  by_cases he : rmin = rmax
  · rw [if_pos he]
    exact ⟨_, rfl, rfl, rfl, rfl, rfl⟩
  · rw [if_neg he]
    exact ⟨_, rfl, rfl, rfl, rfl, rfl⟩

theorem fakeQuantCore_zeroPoint (sf : Bool) (sw : Nat) (qmin0 qmax : ℤ) (rmin rmax : ℚ)
    (nr : Bool) (t : UniformQuantizedType) (hq : qmin0 + 1 ≤ qmax)
    (h : fakeQuantAttrsToType.fakeQuantCore sf sw qmin0 qmax rmin rmax nr = .ok t)
    (hne : rmin ≠ rmax) :
    t.qmin ≤ t.zeroPoint ∧ t.zeroPoint ≤ t.qmax := by
  have hqle : adjustNarrow nr qmin0 ≤ qmax := by
    unfold adjustNarrow; split <;> omega
  simp only [fakeQuantAttrsToType.fakeQuantCore] at h
  by_cases hstr : 0 < rmin ∨ rmax < 0
  · rw [if_pos hstr] at h
    exact absurd h (by simp)
  · rw [if_neg hstr, if_neg hne] at h
    rw [Except.ok.injEq] at h
    subst h
    exact nudge_mem _ _ _ hqle

/-- C9: `fakeQuantAttrsToType` emits an error and returns a null type whenever
`numBits > 16`, and likewise whenever `rmin > 0` or `rmax < 0`; otherwise,
with `numBits ≤ 8` it uses 8-bit unsigned storage with quantized range
`[0, 255]`, and with `8 < numBits ≤ 16` it uses 16-bit signed storage with
range `[-32768, 32767]`, the lower end incremented by 1 when `narrowRange`
is set. -/
theorem fakeQuantAttrsToType_branches (numBits : Nat) (rmin rmax : ℚ) (nr : Bool) :
    (16 < numBits → ∃ s, fakeQuantAttrsToType numBits rmin rmax nr = .error s) ∧
    (numBits ≤ 16 → (0 < rmin ∨ rmax < 0) →
      ∃ s, fakeQuantAttrsToType numBits rmin rmax nr = .error s) ∧
    (numBits ≤ 8 → rmin ≤ 0 → 0 ≤ rmax →
      ∃ t, fakeQuantAttrsToType numBits rmin rmax nr = .ok t ∧
        t.signedFlag = false ∧ t.storageWidth = 8 ∧
        t.qmin = (if nr then 1 else 0) ∧ t.qmax = 255) ∧
    (8 < numBits → numBits ≤ 16 → rmin ≤ 0 → 0 ≤ rmax →
      ∃ t, fakeQuantAttrsToType numBits rmin rmax nr = .ok t ∧
        t.signedFlag = true ∧ t.storageWidth = 16 ∧
        t.qmin = (if nr then -32767 else -32768) ∧ t.qmax = 32767) := by
  refine ⟨?_, ?_, ?_, ?_⟩
  · intro h
    simp only [fakeQuantAttrsToType]
    rw [if_neg (by omega), if_neg (by omega)]
    exact ⟨_, rfl⟩
  · intro h16 hstr
    simp only [fakeQuantAttrsToType]
    by_cases h8 : numBits ≤ 8
    · rw [if_pos h8]
      exact fakeQuantCore_err _ _ _ _ _ _ _ hstr
    · rw [if_neg h8, if_pos h16]
      exact fakeQuantCore_err _ _ _ _ _ _ _ hstr
  · intro h8 h1 h2
    simp only [fakeQuantAttrsToType]
    rw [if_pos h8]
    obtain ⟨t, ht, hsf, hsw, hmin, hmax⟩ := fakeQuantCore_ok false 8 0 255 rmin rmax nr h1 h2
    refine ⟨t, ht, hsf, hsw, ?_, hmax⟩
    rw [hmin]; unfold adjustNarrow; split <;> rfl
  · intro h8 h16 h1 h2
    simp only [fakeQuantAttrsToType]
    rw [if_neg (by omega), if_pos h16]
    obtain ⟨t, ht, hsf, hsw, hmin, hmax⟩ :=
      fakeQuantCore_ok true 16 (-32768) 32767 rmin rmax nr h1 h2
    refine ⟨t, ht, hsf, hsw, ?_, hmax⟩
    rw [hmin]; unfold adjustNarrow; split <;> rfl

/-- Witness for C9: each branch of the claim evaluated at a concrete input. -/
theorem fakeQuantAttrsToType_branches_witness :
    (∃ s, fakeQuantAttrsToType 17 0 0 false = .error s) ∧
    (∃ s, fakeQuantAttrsToType 8 1 2 false = .error s) ∧
    (∃ t, fakeQuantAttrsToType 8 (-1) 1 true = .ok t ∧
      t.signedFlag = false ∧ t.storageWidth = 8 ∧
      t.qmin = (if (true : Bool) then 1 else 0) ∧ t.qmax = 255) ∧
    (∃ t, fakeQuantAttrsToType 16 (-2) 6 false = .ok t ∧
      t.signedFlag = true ∧ t.storageWidth = 16 ∧
      t.qmin = (if (false : Bool) then -32767 else -32768) ∧ t.qmax = 32767) :=
  ⟨(fakeQuantAttrsToType_branches 17 0 0 false).1 (by norm_num),
   (fakeQuantAttrsToType_branches 8 1 2 false).2.1 (by norm_num) (Or.inl (by norm_num)),
   (fakeQuantAttrsToType_branches 8 (-1) 1 true).2.2.1 (by norm_num) (by norm_num)
     (by norm_num),
   (fakeQuantAttrsToType_branches 16 (-2) 6 false).2.2.2 (by norm_num) (by norm_num)
     (by norm_num) (by norm_num)⟩

/-- C10: on every path of `fakeQuantAttrsToType` that reaches the final type
construction with `rmin ≠ rmax`, the nudged zero point lies within
`[qmin, qmax]`, so the two assertions before the return can never fire. -/
theorem fakeQuantAttrsToType_zeroPoint_in_range (numBits : Nat) (rmin rmax : ℚ)
    (nr : Bool) (t : UniformQuantizedType)
    (h : fakeQuantAttrsToType numBits rmin rmax nr = .ok t) (hne : rmin ≠ rmax) :
    t.qmin ≤ t.zeroPoint ∧ t.zeroPoint ≤ t.qmax := by
  simp only [fakeQuantAttrsToType] at h
  by_cases h8 : numBits ≤ 8
  · rw [if_pos h8] at h
    exact fakeQuantCore_zeroPoint _ _ _ _ _ _ _ _ (by norm_num) h hne
  · rw [if_neg h8] at h
    by_cases h16 : numBits ≤ 16
    · rw [if_pos h16] at h
      exact fakeQuantCore_zeroPoint _ _ _ _ _ _ _ _ (by norm_num) h hne
    · rw [if_neg h16] at h
      exact absurd h (by simp)

/-- Witness for C10: the nudged zero point of a concrete narrow-range type. -/
theorem fakeQuantAttrsToType_zeroPoint_in_range_witness :
    ∃ t, fakeQuantAttrsToType 8 (-1) 1 true = .ok t ∧
      t.qmin ≤ t.zeroPoint ∧ t.zeroPoint ≤ t.qmax := by
  have h : fakeQuantAttrsToType 8 (-1) 1 true = .ok ⟨false, 8, 1/127, 128, 1, 255⟩ := by
    norm_num [fakeQuantAttrsToType, fakeQuantAttrsToType.fakeQuantCore, adjustNarrow,
      nudge, cround]
  exact ⟨_, h, fakeQuantAttrsToType_zeroPoint_in_range 8 (-1) 1 true _ h (by norm_num)⟩

/-- C3 counterexample: a single-iteration loop whose body writes `A[i]` and
reads `A[i-1]` is classified parallel (no two distinct iterations exist),
so `isLoopParallel` does not return false for every such loop. -/
theorem isLoopParallel_carried_counterexample :
    (⟨0, true, .ivOff 0⟩ : MemAccess) ∈
      (⟨0, 1, [⟨0, true, .ivOff 0⟩, ⟨0, false, .ivOff (-1)⟩]⟩ : AffineLoop).accs ∧
    (⟨0, false, .ivOff (-1)⟩ : MemAccess) ∈
      (⟨0, 1, [⟨0, true, .ivOff 0⟩, ⟨0, false, .ivOff (-1)⟩]⟩ : AffineLoop).accs ∧
    isLoopParallel ⟨0, 1, [⟨0, true, .ivOff 0⟩, ⟨0, false, .ivOff (-1)⟩]⟩ = true := by
  decide

/-- C3 (amended): `isLoopParallel` returns false for every loop with at
least two iterations whose body writes `A[i]` and reads `A[i-1]`, and
returns true for every loop whose body's sole access is the write `A[i]`. -/
theorem isLoopParallel_carried_and_single_write :
    (∀ (a : Nat) (L : AffineLoop),
      (⟨a, true, .ivOff 0⟩ : MemAccess) ∈ L.accs →
      (⟨a, false, .ivOff (-1)⟩ : MemAccess) ∈ L.accs →
      L.lb + 2 ≤ L.ub →
      isLoopParallel L = false) ∧
    (∀ (a : Nat) (lb ub : ℤ),
      isLoopParallel ⟨lb, ub, [⟨a, true, .ivOff 0⟩]⟩ = true) := by
  constructor
  · intro a L hw hr hn
    have hcar : carriedDependence L ⟨a, true, .ivOff 0⟩ ⟨a, false, .ivOff (-1)⟩ = true := by
      unfold carriedDependence
      rw [List.any_eq_true]
      refine ⟨0, List.mem_range.mpr (by omega), ?_⟩
      rw [List.any_eq_true]
      refine ⟨1, List.mem_range.mpr (by omega), ?_⟩
      simp [Idx1.eval]
    have hany : (L.accs.any fun p => L.accs.any fun q =>
        conflicting p q && carriedDependence L p q) = true := by
      rw [List.any_eq_true]
      refine ⟨_, hw, ?_⟩
      rw [List.any_eq_true]
      refine ⟨_, hr, ?_⟩
      rw [Bool.and_eq_true]
      exact ⟨by simp [conflicting], hcar⟩
    unfold isLoopParallel
    rw [hany]
    simp
  · intro a lb ub
    have hcar : ∀ q ∈ [(⟨a, true, .ivOff 0⟩ : MemAccess)],
        carriedDependence ⟨lb, ub, [⟨a, true, .ivOff 0⟩]⟩ ⟨a, true, .ivOff 0⟩ q = false := by
      intro q hq
      rw [List.mem_singleton] at hq
      subst hq
      unfold carriedDependence
      rw [List.any_eq_false]
      intro k1 _
      rw [Bool.not_eq_true, List.any_eq_false]
      intro k2 _
      simp only [Idx1.eval, Bool.and_eq_true, decide_eq_true_eq, beq_iff_eq,
        Bool.not_eq_true]
      intro hne
      exact absurd (by omega : k1 = k2) hne.1
    unfold isLoopParallel
    simp only [List.all_cons, List.all_nil, Idx1.analyzable, Bool.and_true,
      List.any_cons, List.any_nil, Bool.or_false, Bool.true_and]
    rw [hcar _ (List.mem_singleton.mpr rfl)]
    simp

/-- Witness for the amended C3 at concrete loops: a three-iteration loop
with the carried pair is sequential; a four-iteration loop whose only
access is the write is parallel. -/
theorem isLoopParallel_carried_and_single_write_witness :
    isLoopParallel ⟨0, 3, [⟨0, true, .ivOff 0⟩, ⟨0, false, .ivOff (-1)⟩]⟩ = false ∧
    isLoopParallel ⟨5, 9, [⟨2, true, .ivOff 0⟩]⟩ = true :=
  ⟨isLoopParallel_carried_and_single_write.1 0
      ⟨0, 3, [⟨0, true, .ivOff 0⟩, ⟨0, false, .ivOff (-1)⟩]⟩
      (by decide) (by decide) (by decide),
   isLoopParallel_carried_and_single_write.2 2 5 9⟩

/-- C6: whenever any access of the loop body has a non-affine (unanalyzable)
subscript, `isLoopParallel` classifies the loop as sequential. -/
theorem isLoopParallel_nonAffine_sequential (L : AffineLoop) (a : MemAccess)
    (ha : a ∈ L.accs) (hna : a.idx = .nonAffine) : isLoopParallel L = false := by
  unfold isLoopParallel
  have hall : L.accs.all (fun a => a.idx.analyzable) = false := by
    rw [List.all_eq_false]
    exact ⟨a, ha, by rw [hna]; simp [Idx1.analyzable]⟩
  rw [hall]
  rfl

/-- Witness for C6: a loop with one analyzable write and one non-affine
read is classified sequential. -/
theorem isLoopParallel_nonAffine_sequential_witness :
    isLoopParallel ⟨0, 10, [⟨0, true, .ivOff 0⟩, ⟨1, false, .nonAffine⟩]⟩ = false :=
  isLoopParallel_nonAffine_sequential
    ⟨0, 10, [⟨0, true, .ivOff 0⟩, ⟨1, false, .nonAffine⟩]⟩
    ⟨1, false, .nonAffine⟩ (by decide) rfl

/-- C4: for `for i in [0,10): for j in [0,10): load A[i][j]`, computing the
region at loop depth 1 and extracting the constant bounding shape yields
`[1, 10]`, and at loop depth 0 it yields `[10, 10]`. -/
theorem memRefRegion_shape_at_depths :
    ((MemRefRegion.compute loadNest1010 1).map fun r =>
      r.getConstantBoundingSizeAndShape.map Prod.snd) = some (some [1, 10]) ∧
    ((MemRefRegion.compute loadNest1010 0).map fun r =>
      r.getConstantBoundingSizeAndShape.map Prod.snd) = some (some [10, 10]) := by
  decide

/-- C5: every region a successful `MemRefRegion::compute` produces has
exactly as many dimension identifiers as the rank of the accessed memref;
`unionBoundingBox` preserves the dimension count; and an unsatisfiable
constraint system is a legitimate empty region, not a failure of
`compute`. -/
theorem memRefRegion_numDims_invariant :
    (∀ (an : AccessNest) (d : Nat) (r : MemRefRegion),
      MemRefRegion.compute an d = some r → r.cst.numDims = an.indices.length) ∧
    (∀ (r1 r2 r : MemRefRegion),
      MemRefRegion.unionBoundingBox r1 r2 = some r →
      r.cst.numDims = r1.cst.numDims) ∧
    (∃ r, MemRefRegion.compute emptyTripNest 0 = some r ∧ ¬ r.cst.satisfiable) := by
  refine ⟨?_, ?_, ?_⟩
  · intro an d r h
    unfold MemRefRegion.compute at h
    cases hb : buildRows an.indices.length d an.loops 0 an.indices with
    | none => rw [hb] at h; exact absurd h (by simp)
    | some rows =>
      rw [hb] at h
      rw [Option.map_some', Option.some.injEq] at h
      subst h
      rfl
  · intro r1 r2 r h
    unfold MemRefRegion.unionBoundingBox at h
    by_cases hc : r1.memref ≠ r2.memref ∨ r1.cst.numDims ≠ r2.cst.numDims ∨
        r1.cst.numSyms ≠ r2.cst.numSyms
    · rw [if_pos hc] at h
      exact absurd h (by simp)
    · rw [if_neg hc] at h
      cases hm : (List.range r1.cst.numDims).mapM (hullRowsAt r1 r2) with
      | none => rw [hm] at h; exact absurd h (by simp)
      | some rowss =>
        rw [hm] at h
        rw [Option.map_some', Option.some.injEq] at h
        subst h
        rfl
  · refine ⟨⟨0, false, 0, ⟨1, 0, [⟨[1], [], -5, false⟩, ⟨[-1], [], 4, false⟩]⟩⟩,
      by decide, ?_⟩
    rintro ⟨ds, ss, hds, hss, hall⟩
    rcases ds with _ | ⟨v, _ | ⟨w, tl⟩⟩
    · simp at hds
    · have h1 := hall ⟨[1], [], -5, false⟩ (by simp)
      have h2 := hall ⟨[-1], [], 4, false⟩ (by simp)
      simp [LinCon.holds, dot] at h1 h2
      omega
    · simp at hds

/-- Witness for C5: the invariant applied at the concrete nests. -/
theorem memRefRegion_numDims_invariant_witness :
    (∃ r, MemRefRegion.compute loadNest1010 1 = some r ∧ r.cst.numDims = 2) ∧
    (MemRefRegion.unionBoundingBox loadNest1010Region0 loadNest1010Region0 =
      some loadNest1010Region0 ∧
      loadNest1010Region0.cst.numDims = loadNest1010Region0.cst.numDims) := by
  have h1 : MemRefRegion.compute loadNest1010 1 =
      some ⟨0, false, 3, ⟨2, 1, [⟨[1, 0], [-1], 0, true⟩, ⟨[0, 1], [0], 0, false⟩,
        ⟨[0, -1], [0], 9, false⟩]⟩⟩ := by decide
  have hu : MemRefRegion.unionBoundingBox loadNest1010Region0 loadNest1010Region0 =
      some loadNest1010Region0 := by decide
  exact ⟨⟨_, h1, memRefRegion_numDims_invariant.1 loadNest1010 1 _ h1⟩,
    hu, memRefRegion_numDims_invariant.2.1 loadNest1010Region0 loadNest1010Region0
      loadNest1010Region0 hu⟩

theorem unitCoeffs_getElem (n m : Nat) (a : ℤ) (pos : Nat) (h : pos < n) :
    (unitCoeffs n m a)[pos]? = some (if pos = m then a else 0) := by
  unfold unitCoeffs
  rw [List.getElem?_map, List.getElem?_range h]
  rfl

theorem eq_of_unitCoeffs_eq (n m pos : Nat) (a b : ℤ) (hpos : pos < n)
    (he : unitCoeffs n m a = unitCoeffs n pos b) : (if pos = m then a else 0) = b := by
  have h1 := unitCoeffs_getElem n m a pos hpos
  have h2 := unitCoeffs_getElem n pos b pos hpos
  rw [he, h2, Option.some.injEq, if_pos rfl] at h1
  by_cases hm : pos = m
  · rw [if_pos hm]
    rw [if_pos hm] at h1
    exact h1.symm
  · rw [if_neg hm]
    rw [if_neg hm] at h1
    exact h1.symm

theorem rowsForIndex_dimCoeffs (rank d : Nat) (loops : List (ℤ × ℤ)) (m : Nat)
    (e : IndexExpr) (rs : List LinCon) (h : rowsForIndex rank d loops m e = some rs)
    (c : LinCon) (hc : c ∈ rs) :
    c.dimCoeffs = unitCoeffs rank m 1 ∨ c.dimCoeffs = unitCoeffs rank m (-1) := by
  cases e with
  | cst c0 =>
    rw [rowsForIndex, Option.some.injEq] at h
    subst h
    rw [List.mem_singleton] at hc
    subst hc
    exact Or.inl rfl
  | iv k c0 =>
    rw [rowsForIndex] at h
    split_ifs at h with hk
    · rw [Option.some.injEq] at h
      subst h
      rw [List.mem_singleton] at hc
      subst hc
      exact Or.inl rfl
    · cases hg : loops.get? k with
      | none => rw [hg] at h; exact absurd h (by simp)
      | some p =>
        rw [hg] at h
        rw [Option.some.injEq] at h
        subst h
        rcases List.mem_cons.mp hc with rfl | hc2
        · exact Or.inl rfl
        · rcases List.mem_cons.mp hc2 with rfl | hc3
          · exact Or.inr rfl
          · simp at hc3
  | nonAffine => exact absurd h (by simp [rowsForIndex])

theorem buildRows_mem (rank d : Nat) (loops : List (ℤ × ℤ)) :
    ∀ (l : List IndexExpr) (p : Nat) (rows : List LinCon),
      buildRows rank d loops p l = some rows →
      ∀ c ∈ rows, ∃ j e rs, l[j]? = some e ∧
        rowsForIndex rank d loops (p + j) e = some rs ∧ c ∈ rs := by
  intro l
  induction l with
  | nil =>
    intro p rows h c hc
    rw [buildRows, Option.some.injEq] at h
    subst h
    simp at hc
  | cons e rest ih =>
    intro p rows h c hc
    rw [buildRows] at h
    cases h1 : rowsForIndex rank d loops p e with
    | none => rw [h1] at h; exact absurd h (by simp)
    | some rs =>
      cases h2 : buildRows rank d loops (p + 1) rest with
      | none => rw [h1, h2] at h; exact absurd h (by simp)
      | some rest2 =>
        rw [h1, h2] at h
        simp only [Option.some.injEq] at h
        subst h
        rcases List.mem_append.mp hc with hin | hin
        · exact ⟨0, e, rs, by simp, by simpa using h1, hin⟩
        · obtain ⟨j, e2, rs2, hj, hr, hm⟩ := ih (p + 1) rest2 h2 c hin
          refine ⟨j + 1, e2, rs2, by simpa using hj, ?_, hm⟩
          rw [show p + (j + 1) = p + 1 + j by omega]
          exact hr

theorem pos_lt_of_getElem_some {α : Type} (l : List α) (pos : Nat) (e : α)
    (he : l[pos]? = some e) : pos < l.length := by
  by_contra hge
  rw [List.getElem?_eq_none (by omega)] at he
  cases he

/-- On a region computed at depth 0, the machinery's constant lower bound
for a dimension is exactly the smallest value of its subscript. -/
theorem lowerBound_exact (loops : List (ℤ × ℤ)) (indices : List IndexExpr)
    (rows : List LinCon)
    (hb : buildRows indices.length 0 loops 0 indices = some rows)
    (pos : Nat) (e : IndexExpr) (he : indices[pos]? = some e) (a : ℤ)
    (ha : FlatAffineConstraints.getConstantLowerBound
      ⟨indices.length, 0, rows⟩ pos = some a) :
    loVal loops e = some a := by
  have hpos : pos < indices.length := pos_lt_of_getElem_some _ _ _ he
  unfold FlatAffineConstraints.getConstantLowerBound at ha
  have hmem := List.max?_mem (fun x y => max_choice x y) ha
  rw [List.mem_filterMap] at hmem
  obtain ⟨c, hcrows, hfc⟩ := hmem
  split_ifs at hfc with hcond
  · rw [Option.some.injEq] at hfc
    rw [Bool.and_eq_true, beq_iff_eq] at hcond
    obtain ⟨hdim, _⟩ := hcond
    obtain ⟨j, e2, rs, hj, hr, hcin⟩ := buildRows_mem _ _ _ indices 0 rows hb c hcrows
    rw [Nat.zero_add] at hr
    have hjpos : j = pos := by
      rcases rowsForIndex_dimCoeffs _ _ _ _ _ _ hr c hcin with hd | hd
      · have := eq_of_unitCoeffs_eq _ _ _ _ _ hpos (hd.symm.trans hdim)
        by_cases hjp : pos = j
        · exact hjp.symm
        · rw [if_neg hjp] at this; norm_num at this
      · have := eq_of_unitCoeffs_eq _ _ _ _ _ hpos (hd.symm.trans hdim)
        by_cases hjp : pos = j
        · rw [if_pos hjp] at this; norm_num at this
        · rw [if_neg hjp] at this; norm_num at this
    subst hjpos
    rw [hj, Option.some.injEq] at he
    subst he
    cases e2 with
    | cst c0 =>
      rw [rowsForIndex, Option.some.injEq] at hr
      subst hr
      rw [List.mem_singleton] at hcin
      subst hcin
      simp only [loVal]
      rw [Option.some.injEq]
      simp at hfc
      omega
    | iv k c0 =>
      rw [rowsForIndex] at hr
      rw [if_neg (by omega)] at hr
      cases hg : loops.get? k with
      | none => rw [hg] at hr; exact absurd hr (by simp)
      | some p =>
        rw [hg] at hr
        rw [Option.some.injEq] at hr
        subst hr
        rcases List.mem_cons.mp hcin with rfl | hcin2
        · simp only [loVal, hg, Option.map_some']
          rw [Option.some.injEq]
          simp at hfc
          omega
        · rcases List.mem_cons.mp hcin2 with rfl | hcin3
          · exfalso
            have := eq_of_unitCoeffs_eq _ _ _ _ _ hpos hdim
            rw [if_pos rfl] at this
            norm_num at this
          · simp at hcin3
    | nonAffine => exact absurd hr (by simp [rowsForIndex])

/-- On a region computed at depth 0, the machinery's constant upper bound
for a dimension is exactly the largest value of its subscript. -/
theorem upperBound_exact (loops : List (ℤ × ℤ)) (indices : List IndexExpr)
    (rows : List LinCon)
    (hb : buildRows indices.length 0 loops 0 indices = some rows)
    (pos : Nat) (e : IndexExpr) (he : indices[pos]? = some e) (b : ℤ)
    (hbnd : FlatAffineConstraints.getConstantUpperBound
      ⟨indices.length, 0, rows⟩ pos = some b) :
    hiVal loops e = some b := by
  have hpos : pos < indices.length := pos_lt_of_getElem_some _ _ _ he
  unfold FlatAffineConstraints.getConstantUpperBound at hbnd
  have hmem := List.min?_mem (fun x y => min_choice x y) hbnd
  rw [List.mem_filterMap] at hmem
  obtain ⟨c, hcrows, hfc⟩ := hmem
  obtain ⟨j, e2, rs, hj, hr, hcin⟩ := buildRows_mem _ _ _ indices 0 rows hb c hcrows
  rw [Nat.zero_add] at hr
  split_ifs at hfc with hcond1 hcond2
  · -- equality row determining the dimension: `b = -const`
    rw [Option.some.injEq] at hfc
    rw [Bool.and_eq_true, Bool.and_eq_true, beq_iff_eq] at hcond1
    obtain ⟨⟨hiseq, hdim⟩, _⟩ := hcond1
    have hjpos : j = pos := by
      rcases rowsForIndex_dimCoeffs _ _ _ _ _ _ hr c hcin with hd | hd
      · have := eq_of_unitCoeffs_eq _ _ _ _ _ hpos (hd.symm.trans hdim)
        by_cases hjp : pos = j
        · exact hjp.symm
        · rw [if_neg hjp] at this; norm_num at this
      · have := eq_of_unitCoeffs_eq _ _ _ _ _ hpos (hd.symm.trans hdim)
        by_cases hjp : pos = j
        · rw [if_pos hjp] at this; norm_num at this
        · rw [if_neg hjp] at this; norm_num at this
    subst hjpos
    rw [hj, Option.some.injEq] at he
    subst he
    cases e2 with
    | cst c0 =>
      rw [rowsForIndex, Option.some.injEq] at hr
      subst hr
      rw [List.mem_singleton] at hcin
      subst hcin
      simp only [hiVal]
      rw [Option.some.injEq]
      simp at hfc
      omega
    | iv k c0 =>
      rw [rowsForIndex] at hr
      rw [if_neg (by omega)] at hr
      cases hg : loops.get? k with
      | none => rw [hg] at hr; exact absurd hr (by simp)
      | some p =>
        rw [hg] at hr
        rw [Option.some.injEq] at hr
        subst hr
        exfalso
        rcases List.mem_cons.mp hcin with rfl | hcin2
        · cases hiseq
        · rcases List.mem_cons.mp hcin2 with rfl | hcin3
          · cases hiseq
          · simp at hcin3
    | nonAffine => exact absurd hr (by simp [rowsForIndex])
  · -- upper inequality row: `b = const`
    rw [Option.some.injEq] at hfc
    rw [Bool.and_eq_true, Bool.and_eq_true, Bool.not_eq_eq_eq_not, Bool.not_true,
      beq_iff_eq] at hcond2
    obtain ⟨⟨hineq, hdim⟩, _⟩ := hcond2
    have hjpos : j = pos := by
      rcases rowsForIndex_dimCoeffs _ _ _ _ _ _ hr c hcin with hd | hd
      · have := eq_of_unitCoeffs_eq _ _ _ _ _ hpos (hd.symm.trans hdim)
        by_cases hjp : pos = j
        · rw [if_pos hjp] at this; norm_num at this
        · rw [if_neg hjp] at this; norm_num at this
      · have := eq_of_unitCoeffs_eq _ _ _ _ _ hpos (hd.symm.trans hdim)
        by_cases hjp : pos = j
        · exact hjp.symm
        · rw [if_neg hjp] at this; norm_num at this
    subst hjpos
    rw [hj, Option.some.injEq] at he
    subst he
    cases e2 with
    | cst c0 =>
      rw [rowsForIndex, Option.some.injEq] at hr
      subst hr
      rw [List.mem_singleton] at hcin
      subst hcin
      cases hineq
    | iv k c0 =>
      rw [rowsForIndex] at hr
      rw [if_neg (by omega)] at hr
      cases hg : loops.get? k with
      | none => rw [hg] at hr; exact absurd hr (by simp)
      | some p =>
        rw [hg] at hr
        rw [Option.some.injEq] at hr
        subst hr
        rcases List.mem_cons.mp hcin with rfl | hcin2
        · exfalso
          have := eq_of_unitCoeffs_eq _ _ _ _ _ hpos hdim
          rw [if_pos rfl] at this
          norm_num at this
        · rcases List.mem_cons.mp hcin2 with rfl | hcin3
          · simp only [hiVal, hg, Option.map_some']
            rw [Option.some.injEq]
            simp at hfc
            omega
          · simp at hcin3
    | nonAffine => exact absurd hr (by simp [rowsForIndex])

/-- C7: `boundCheckLoadOrStoreOp` returns failure, emitting a diagnostic at
the access location exactly when `emitError` is set, for `A[10]` with static
extent 10; it returns success for `A[i]` with `i` bounded to `[0, 10)`; and
whenever it fails, some subscript provably escapes its valid range. -/
theorem boundCheckLoadOrStoreOp_claim :
    (boundCheckLoadOrStoreOp constIndexAccess true = (false, [7]) ∧
     boundCheckLoadOrStoreOp constIndexAccess false = (false, [])) ∧
    (∀ em, boundCheckLoadOrStoreOp ivIndexAccess em = (true, [])) ∧
    (∀ (an : AccessNest) (em : Bool),
      (boundCheckLoadOrStoreOp an em).1 = false →
      ∃ pos e ext, an.indices[pos]? = some e ∧ an.extents.get? pos = some ext ∧
        idxCanEscape an.loops e ext) := by
  refine ⟨⟨by decide, by decide⟩, ?_, ?_⟩
  · intro em
    cases em <;> decide
  · intro an em h
    unfold boundCheckLoadOrStoreOp at h
    cases hc : MemRefRegion.compute an 0 with
    | none => rw [hc] at h; simp at h
    | some r =>
      rw [hc] at h
      unfold MemRefRegion.compute at hc
      cases hb : buildRows an.indices.length 0 an.loops 0 an.indices with
      | none => rw [hb] at hc; exact absurd hc (by simp)
      | some rows =>
        rw [hb] at hc
        rw [Option.map_some', Option.some.injEq] at hc
        subst hc
        simp only at h
        obtain ⟨pos, hrange, hp⟩ : ∃ x < an.indices.length,
            dimOutOfRange an ⟨an.indices.length, 0, rows⟩ x = true := by
          simpa using h
        unfold dimOutOfRange at hp
        cases hext : an.extents.get? pos with
        | none => rw [hext] at hp; cases hp
        | some ext =>
          rw [hext] at hp
          cases hlo : FlatAffineConstraints.getConstantLowerBound
              ⟨an.indices.length, 0, rows⟩ pos with
          | none => rw [hlo] at hp; cases hp
          | some a =>
            cases hhi : FlatAffineConstraints.getConstantUpperBound
                ⟨an.indices.length, 0, rows⟩ pos with
            | none => rw [hlo, hhi] at hp; cases hp
            | some b =>
              rw [hlo, hhi] at hp
              rw [Bool.and_eq_true, Bool.and_eq_true] at hp
              obtain ⟨⟨hab, hor⟩, _⟩ := hp
              rw [decide_eq_true_eq] at hab
              rw [Bool.or_eq_true, decide_eq_true_eq, decide_eq_true_eq] at hor
              cases hie : an.indices[pos]? with
              | none =>
                rw [List.getElem?_eq_none_iff] at hie
                omega
              | some e =>
                have hloVal := lowerBound_exact an.loops an.indices rows hb pos e hie a hlo
                have hhiVal := upperBound_exact an.loops an.indices rows hb pos e hie b hhi
                refine ⟨pos, e, ext, hie, hext, ?_⟩
                cases e with
                | cst c0 =>
                  simp only [loVal, Option.some.injEq] at hloVal
                  simp only [hiVal, Option.some.injEq] at hhiVal
                  simp only [idxCanEscape]
                  omega
                | iv k c0 =>
                  simp only [loVal] at hloVal
                  simp only [hiVal] at hhiVal
                  rw [Option.map_eq_some'] at hloVal hhiVal
                  obtain ⟨p1, hg1, hv1⟩ := hloVal
                  obtain ⟨p2, hg2, hv2⟩ := hhiVal
                  rw [hg1, Option.some.injEq] at hg2
                  subst hg2
                  simp only [idxCanEscape]
                  refine ⟨p1.1, p1.2, if a < 0 then p1.1 else p1.2 - 1, by
                      rw [hg1], ?_, ?_, ?_⟩
                  · split_ifs with hneg
                    · exact le_refl _
                    · omega
                  · split_ifs with hneg
                    · omega
                    · omega
                  · split_ifs with hneg
                    · left; omega
                    · right; omega
                | nonAffine => simp [loVal] at hloVal

/-- Witness for C7: the general only-fails-when-provable implication applied
to the failing access `A[10]`. -/
theorem boundCheckLoadOrStoreOp_claim_witness :
    ∃ pos e ext, constIndexAccess.indices[pos]? = some e ∧
      constIndexAccess.extents.get? pos = some ext ∧
      idxCanEscape constIndexAccess.loops e ext :=
  boundCheckLoadOrStoreOp_claim.2.2 constIndexAccess true (by decide)

theorem iterate_prodLoop (F : Nat → ℤ → ℤ) :
    ∀ (n : Nat) (i : ℤ) (m : Mem),
      iterate (fun i mm => writeMem mm 0 i (F 0 i)) i n m =
        fun b y => if b = 0 ∧ i ≤ y ∧ y < i + n then F 0 y else m b y := by
  intro n
  induction n with
  | zero =>
    intro i m
    funext b y
    simp only [iterate]
    rw [if_neg (by omega)]
  | succ k ih =>
    intro i m
    funext b y
    simp only [iterate]
    rw [ih (i + 1) (writeMem m 0 i (F 0 i))]
    simp only [writeMem]
    split_ifs <;> first | rfl | omega | exact congrArg (F 0) (by omega)

theorem iterate_consLoop (F : Nat → ℤ → ℤ) :
    ∀ (n : Nat) (i : ℤ) (m : Mem),
      iterate (fun i mm => writeMem mm 1 i (F 1 (mm 0 i))) i n m =
        fun b y => if b = 1 ∧ i ≤ y ∧ y < i + n then F 1 (m 0 y) else m b y := by
  intro n
  induction n with
  | zero =>
    intro i m
    funext b y
    simp only [iterate]
    rw [if_neg (by omega)]
  | succ k ih =>
    intro i m
    funext b y
    simp only [iterate]
    rw [ih (i + 1) (writeMem m 1 i (F 1 (m 0 i)))]
    simp only [writeMem]
    split_ifs <;>
      first
        | rfl
        | omega
        | exact congrArg (F 1) (congrArg (m 0) (by omega))

theorem iterate_fusedLoop (F : Nat → ℤ → ℤ) :
    ∀ (n : Nat) (i : ℤ) (m : Mem),
      iterate (fun i mm =>
        writeMem (writeMem mm 0 i (F 0 i)) 1 i (F 1 (F 0 i))) i n m =
        fun b y =>
          if b = 0 ∧ i ≤ y ∧ y < i + n then F 0 y
          else if b = 1 ∧ i ≤ y ∧ y < i + n then F 1 (F 0 y)
          else m b y := by
  intro n
  induction n with
  | zero =>
    intro i m
    funext b y
    simp only [iterate]
    rw [if_neg (by omega), if_neg (by omega)]
  | succ k ih =>
    intro i m
    funext b y
    simp only [iterate]
    rw [ih (i + 1) (writeMem (writeMem m 0 i (F 0 i)) 1 i (F 1 (F 0 i)))]
    simp only [writeMem]
    split_ifs <;>
      first
        | rfl
        | omega
        | exact congrArg (F 0) (by omega)
        | exact congrArg (F 1) (congrArg (F 0) (by omega))

/-- C8: for every `ComputationSliceState`, `clearBounds` empties the
lower/upper bound map lists and both operand lists while leaving the list
of source loop induction variables unchanged. -/
theorem clearBounds_resets_bounds_keeps_ivs (s : ComputationSliceState) :
    s.clearBounds.lbs = [] ∧ s.clearBounds.ubs = [] ∧
    s.clearBounds.lbOperands = [] ∧ s.clearBounds.ubOperands = [] ∧
    s.clearBounds.ivs = s.ivs :=
  ⟨rfl, rfl, rfl, rfl, rfl⟩

/-- C1 counterexample: at `dstLoopDepth = 0` the slice state succeeds, but
its bound maps are the constant source range `[0, 4)`, not the destination
index `i` and `i + 1`. -/
theorem getBackward_depth0_counterexample :
    ∃ s, getBackwardComputationSliceState ⟨0, 100, (0, 4), .iv 0 0⟩
        ⟨0, 200, (0, 4), .iv 0 0⟩ 0 = some s ∧
      s.lbs ≠ [some ⟨[1], 0⟩] ∧ s.ubs ≠ [some ⟨[1], 1⟩] ∧
      s.lbs = [some ⟨[], 0⟩] ∧ s.ubs = [some ⟨[], 4⟩] := by
  refine ⟨_, rfl, by decide, by decide, by decide, by decide⟩

/-- C1 (amended): for the producer `A[i] = f(i)` and consumer `g(A[i])`,
`getBackwardComputationSliceState` at `dstLoopDepth = 1` (destination iv
symbolic) yields lower bound = destination `i` and upper bound = `i + 1`
(exclusive) — exactly one producer iteration per consumer iteration — while
at `dstLoopDepth = 0` it succeeds with the constant bounds of the whole
destination range instead. -/
theorem getBackward_slice_bounds (a srcIv dstIv : Nat) (sl dl : ℤ × ℤ) :
    (getBackwardComputationSliceState ⟨a, srcIv, sl, .iv 0 0⟩
        ⟨a, dstIv, dl, .iv 0 0⟩ 1 =
      some ⟨[srcIv], [some ⟨[1], 0⟩], [some ⟨[1], 1⟩], [[dstIv]], [[dstIv]]⟩) ∧
    (getBackwardComputationSliceState ⟨a, srcIv, sl, .iv 0 0⟩
        ⟨a, dstIv, dl, .iv 0 0⟩ 0 =
      some ⟨[srcIv], [some ⟨[], dl.1⟩], [some ⟨[], dl.2⟩], [[]], [[]]⟩) := by
  constructor
  · unfold getBackwardComputationSliceState
    rw [if_neg (by simp)]
    norm_num
  · unfold getBackwardComputationSliceState
    rw [if_neg (by simp)]
    norm_num

/-- C2: for that pair, the materializer inserts the cloned producer slice
immediately before the consumer statement inside the destination loop body,
leaves the producer nest of the program untouched, and after deleting the
producer nest the fused program computes the same memory as the original
sequential program, for every `N`, function table and initial memory. -/
theorem insertBackwardComputationSlice_fusion (N : Nat) (F : Nat → ℤ → ℤ) (m : Mem) :
    insertBackwardComputationSlice (prodNest N) (consNest N) 1 fusionSlice =
      some (fusedNest N) ∧
    insertSliceInProgram (prodNest N, consNest N) 1 fusionSlice =
      some (prodNest N, fusedNest N) ∧
    execStmt F (fusedNest N) [] m =
      execStmt F (.seq (prodNest N) (consNest N)) [] m := by
  refine ⟨rfl, rfl, ?_⟩
  rw [prodNest, consNest, fusedNest]
  simp only [execStmt, evalV, evalLin, dot]
  simp [iterate, writeMem]
  rw [iterate_prodLoop, iterate_consLoop, iterate_fusedLoop]
  funext b y
  simp only [true_and]
  split_ifs <;> first | rfl | omega

end MlirAnalysis
